import Mathlib

/-!
# Verification of `pyro.contrib.funsor` Trace_ELBO, SEIR models, and funsor HMM examples

This file gives a shallow embedding, in Lean 4, of three Python source files of
the pyro repository:

* `pyro/contrib/funsor/infer/trace_elbo.py` — the funsor-based `Trace_ELBO`
  estimator (`terms_from_trace` and `Trace_ELBO.differentiable_loss`);
* `pyro/contrib/epidemiology/seir.py` — `SimpleSEIRModel` and
  `OverdispersedSEIRModel`;
* `examples/contrib/funsor/hmm.py` — the HMM example models `model_0` and
  `model_1`.

External funsor-library operations (`partial_sum_product`, `sum_product`,
`AdjointTape.adjoint`, `Integrate`, `Constant`, `reduce`) belong to the
separate `funsor` package; they are embedded *symbolically*, as uninterpreted
term constructors that record the arguments with which the pyro code invokes
them.  Everything that `trace_elbo.py` itself computes — the classification of
trace nodes, the sets of plate and measure variables, the partition of
log-factors, the construction of cost terms, targets and the final ELBO
expression — is translated executably, statement by statement.

Pyro effect handlers (`trace`, `replay`) that live in this repository but
outside the provided sources are modelled from the spec where a claim needs
them; such definitions carry a `Modelled from the spec:` doc comment.
-/

namespace PyroFunsor

/-! ## Symbolic funsor terms

`funsor.ops` operations appearing in `trace_elbo.py`. -/

inductive Op where
  | logaddexp
  | add
  | mean
  deriving DecidableEq, Repr

/-- Symbolic funsor expressions.  Leaves (`atom`) stand for the funsors found
in trace nodes (log-probs, log-measures, values); they carry an identifier and
their free-variable (input) set.  The constructors `psp`, `spd` and `adj`
are uninterpreted records of calls into the external funsor library
(`partial_sum_product`, `sum_product`, `AdjointTape.adjoint`). -/
inductive Funsor where
  /-- An opaque funsor leaf with its set of input variables. -/
  | atom (id : Nat) (ins : Finset String)
  /-- A scalar literal, e.g. `to_funsor(1.0)` or `funsor.Tensor(torch.tensor(0.0))`. -/
  | lit (q : ℚ)
  /-- `funsor.constant.Constant(const_inputs, arg)` with a scalar argument. -/
  | constant (ins : Finset String) (value : ℚ)
  /-- Pointwise product (overloaded `*` on funsors). -/
  | mul (a b : Funsor)
  /-- Pointwise negation (overloaded unary `-` on funsors). -/
  | neg (a : Funsor)
  /-- Pointwise sum (overloaded `+` on funsors). -/
  | addF (a b : Funsor)
  /-- `funsor.Integrate(log_measure, integrand, reduced_vars)`. -/
  | integrate (logMeasure integrand : Funsor) (reducedVars : Finset String)
  /-- `x.reduce(op, vars)`. -/
  | reduce (op : Op) (vars : Finset String) (a : Funsor)
  /-- `x.reduce(op)` — reduction over all remaining inputs. -/
  | reduceAll (op : Op) (a : Funsor)
  /-- Symbolic result of `funsor.sum_product.partial_sum_product(sumOp, prodOp,
  factors, plates=plates, eliminate=eliminate)`. -/
  | psp (sumOp prodOp : Op) (factors : List Funsor)
      (plates eliminate : Finset String)
  /-- Symbolic result of `funsor.sum_product.sum_product(sumOp, prodOp,
  factors, plates=plates, eliminate=eliminate)`. -/
  | spd (sumOp prodOp : Op) (factors : List Funsor)
      (plates eliminate : Finset String)
  /-- Symbolic adjoint of `root` with respect to `target`, as returned by
  `AdjointTape.adjoint(sumOp, prodOp, root, targets)`. -/
  | adj (sumOp prodOp : Op) (root target : Funsor)

namespace Funsor

mutual

/-- The free-variable (input) set of a symbolic funsor, following the funsor
library's semantics: products and sums take unions, `Integrate` and `reduce`
remove the reduced variables, contractions remove the eliminated variables. -/
def inputs : Funsor → Finset String
  | atom _ ins => ins
  | lit _ => ∅
  | constant ins _ => ins
  | mul a b => a.inputs ∪ b.inputs
  | neg a => a.inputs
  | addF a b => a.inputs ∪ b.inputs
  | integrate m c v => (m.inputs ∪ c.inputs) \ v
  | reduce _ v a => a.inputs \ v
  | reduceAll _ _ => ∅
  | psp _ _ fs _ elim => inputsList fs \ elim
  | spd _ _ fs _ elim => inputsList fs \ elim
  | adj _ _ _ t => t.inputs

/-- Union of the input sets of a list of funsors. -/
def inputsList : List Funsor → Finset String
  | [] => ∅
  | f :: fs => inputs f ∪ inputsList fs

end

end Funsor

/-! ## Trace nodes

A pyro execution trace is an ordered dictionary of nodes.  We embed it as a
list of `Node` records carrying exactly the fields that `terms_from_trace`
reads: the node type, name, the class name of the distribution (`"_Subsample"`
marks subsample sites), the `_do_not_score` inference flag, the conditional
independence stack, the funsor dictionary (`log_measure`, `value`,
`log_prob`), the scalar `scale`, the markov-chain step structure (for
`markov_chain` nodes), and the observed/replay flags. -/

/-- A frame of the conditional independence stack (`node["cond_indep_stack"]`). -/
structure Frame where
  name : String
  vectorized : Bool

/-- The `node["funsor"]` dictionary at a sample site.  `scale` is kept
separately on the node as a rational scalar (the code converts it with
`float(to_data(...))`, so it is a scalar). -/
structure FunsorDict where
  log_measure : Option Funsor
  value : Funsor
  log_prob : Funsor

/-- A trace node.  `markovValue` is `node["value"]` for `markov_chain` nodes:
an iterable of steps, each step an ordered tuple of site names. -/
structure Node where
  type : String
  name : String
  fnName : String
  do_not_score : Bool
  cond_indep_stack : List Frame
  funsor : FunsorDict
  scale : ℚ
  markovValue : List (List String)
  is_observed : Bool
  replay_active : Bool
  replay_skipped : Bool

/-- A trace: the nodes in insertion order. -/
abbrev Trace := List Node

/-! ## Association-list dictionaries (Python `dict` with insertion order) -/

/-- Python `k in d`. -/
def dictHasKey (d : List (String × α)) (k : String) : Bool :=
  d.any (fun p => p.1 = k)

/-- Python `d.get(k)`. -/
def dictGet (d : List (String × α)) (k : String) : Option α :=
  (d.find? (fun p => p.1 = k)).map (fun p => p.2)

/-- Python `d[k] = v`: overwrite the existing entry in place, or append a new
key at the end (Python dicts keep insertion order and have unique keys). -/
def dictSet : List (String × α) → String → α → List (String × α)
  | [], k, v => [(k, v)]
  | p :: d, k, v => if p.1 = k then (k, v) :: d else p :: dictSet d k v

/-! ## `terms_from_trace` (trace_elbo.py lines 30-91) -/

/-- The accumulating `terms` dictionary of `terms_from_trace`. -/
structure Terms where
  log_factors : List Funsor
  log_measures : List Funsor
  scale : Funsor
  plate_vars : Finset String
  measure_vars : Finset String
  plate_to_step : List (String × List (List String))

/-- The initial `terms` dictionary (trace_elbo.py lines 34-41). -/
def initTerms : Terms :=
  { log_factors := []
    log_measures := []
    scale := .lit 1
    plate_vars := ∅
    measure_vars := ∅
    plate_to_step := [] }

/-- `tr.nodes[name]`, totalised: Python raises `KeyError` when the name is
absent; we return `none`. -/
def lookupNode (tr : Trace) (n : String) : Option Node :=
  tr.find? (fun nd => nd.name = n)

/-- `tr.nodes[v]["funsor"].get("log_measure", None) is not None`, totalised to
`false` when `v` is not in the trace. -/
def nodeHasLogMeasure (tr : Trace) (v : String) : Bool :=
  match lookupNode tr v with
  | some nd => nd.funsor.log_measure.isSome
  | none => false

/-- Python `step[1:-1]`: the previous-step variables of a markov step. -/
def stepMiddle (step : List String) : List String :=
  (step.drop 1).dropLast

/-- The union over steps of `{var for var in step[1:-1] if
tr.nodes[var]["funsor"].get("log_measure", None) is not None}`
(trace_elbo.py lines 47-54). -/
def markovMeasureVars (tr : Trace) (steps : List (List String)) : Finset String :=
  steps.foldl
    (fun acc step =>
      acc ∪ ((stepMiddle step).filter (fun v => nodeHasLogMeasure tr v)).toFinset)
    ∅

/-- `frozenset(f.name for f in node["cond_indep_stack"] if f.vectorized)`
(trace_elbo.py lines 62-64). -/
def frameVars (n : Node) : Finset String :=
  ((n.cond_indep_stack.filter (fun f => f.vectorized)).map (fun f => f.name)).toFinset

/-- One iteration of the `for name, node in tr.nodes.items()` loop of
`terms_from_trace` (trace_elbo.py lines 42-86), translated statement by
statement.  `tr` is the whole trace, needed by the markov branch to look up
previous-step nodes. -/
def processNode (tr : Trace) (terms : Terms) (node : Node) : Terms :=
  -- lines 44-54: add markov dimensions to plate_to_step; ensure previous
  -- step variables are added to measure_vars
  let terms :=
    if node.type = "markov_chain" then
      { terms with
        plate_to_step := dictSet terms.plate_to_step node.name node.markovValue
        measure_vars := terms.measure_vars ∪ markovMeasureVars tr node.markovValue }
    else terms
  -- lines 55-60: skip nodes that are not sample sites, subsample sites, and
  -- sites marked _do_not_score
  if node.type ≠ "sample" ∨ node.fnName = "_Subsample" ∨ node.do_not_score then
    terms
  else
    -- lines 62-64: grab plate dimensions from the cond_indep_stack
    let plate_vars := terms.plate_vars ∪ frameVars node
    -- lines 66-71: grab the log-measure and the fresh non-plate variables
    let log_measures :=
      match node.funsor.log_measure with
      | some lm => terms.log_measures ++ [lm]
      | none => terms.log_measures
    let measure_vars :=
      match node.funsor.log_measure with
      | some _ =>
          terms.measure_vars ∪ ((node.funsor.value.inputs ∪ {node.name}) \ plate_vars)
      | none => terms.measure_vars
    -- lines 73-83: grab the scale, assuming a common subsampling scale
    let useCommonScale :=
      node.replay_active = true
        ∧ (node.funsor.log_prob.inputs ∩ measure_vars).Nonempty
        ∧ node.scale ≠ 1
    let scale := if useCommonScale then Funsor.lit node.scale else terms.scale
    let log_prob :=
      if useCommonScale then node.funsor.log_prob
      else Funsor.mul node.funsor.log_prob (Funsor.lit node.scale)
    -- lines 85-86: grab the log-density at observed or non-replay-skipped sites
    let log_factors :=
      if node.is_observed = true ∨ node.replay_skipped = false then
        terms.log_factors ++ [log_prob]
      else terms.log_factors
    { log_factors := log_factors
      log_measures := log_measures
      scale := scale
      plate_vars := plate_vars
      measure_vars := measure_vars
      plate_to_step := terms.plate_to_step }

/-- The names of all conditional-independence frames of a trace, in order of
first appearance. -/
def tracePlateNames (tr : Trace) : List String :=
  (tr.flatMap (fun n => n.cond_indep_stack.map (fun f => f.name))).dedup

/-- `terms["plate_to_step"].update({plate: terms["plate_to_step"].get(plate, {})
for plate in terms["plate_vars"]})` (trace_elbo.py lines 88-90).  Python
iterates the `plate_vars` frozenset in an unspecified order; we iterate in
`plateOrder` (order of first appearance in the trace), restricted to the
members of `plate_vars`.  The resulting dictionary is the same as a map,
since the value written for each plate does not depend on the iteration
order. -/
def finalizeTerms (plateOrder : List String) (t : Terms) : Terms :=
  { t with
    plate_to_step :=
      (plateOrder.filter (fun p => p ∈ t.plate_vars)).foldl
        (fun acc p => dictSet acc p ((dictGet t.plate_to_step p).getD []))
        t.plate_to_step }

/-- `terms_from_trace(tr)` (trace_elbo.py lines 30-91). -/
def termsFromTrace (tr : Trace) : Terms :=
  finalizeTerms (tracePlateNames tr) (tr.foldl (processNode tr) initTerms)

/-! ## `Trace_ELBO.differentiable_loss` (trace_elbo.py lines 96-181)

The pipeline below starts from the two recorded traces (`model_tr`,
`guide_tr`), exactly as the Python does from line 110 on.  Each Python local
variable becomes a definition parameterised by the two traces.  The external
funsor-library calls are recorded symbolically via the `Funsor.psp`,
`Funsor.spd` and `Funsor.adj` constructors. -/

/-- Symbolic embedding of `funsor.sum_product.partial_sum_product`: the
external library call is represented by a single uninterpreted term recording
its arguments.  (The real call returns a list of remaining factors; the pyro
code only maps a scale multiplication over that list, which is preserved.) -/
def pSumProd (sumOp prodOp : Op) (factors : List Funsor)
    (plates eliminate : Finset String) : List Funsor :=
  [Funsor.psp sumOp prodOp factors plates eliminate]

/-- Symbolic embedding of `funsor.sum_product.sum_product`. -/
def sumProd (sumOp prodOp : Op) (factors : List Funsor)
    (plates eliminate : Finset String) : Funsor :=
  Funsor.spd sumOp prodOp factors plates eliminate

/-- `model_terms = terms_from_trace(model_tr)` (line 110). -/
def modelTermsOf (mtr : Trace) : Terms := termsFromTrace mtr

/-- `guide_terms = terms_from_trace(guide_tr)` (line 111). -/
def guideTermsOf (gtr : Trace) : Terms := termsFromTrace gtr

/-- `plate_vars = (guide_terms["plate_vars"] | model_terms["plate_vars"]) -
frozenset({"num_particles_vectorized"})` (lines 113-115). -/
def plateVarsOf (mtr gtr : Trace) : Finset String :=
  ((guideTermsOf gtr).plate_vars ∪ (modelTermsOf mtr).plate_vars) \
    {"num_particles_vectorized"}

/-- `model_measure_vars = model_terms["measure_vars"] -
guide_terms["measure_vars"]` (line 117). -/
def modelMeasureVarsOf (mtr gtr : Trace) : Finset String :=
  (modelTermsOf mtr).measure_vars \ (guideTermsOf gtr).measure_vars

/-- `contracted_factors`: the model log-factors whose inputs intersect
`model_measure_vars` (lines 120-125). -/
def contractedFactorsOf (mtr gtr : Trace) : List Funsor :=
  (modelTermsOf mtr).log_factors.filter
    (fun f => (modelMeasureVarsOf mtr gtr ∩ f.inputs).Nonempty)

/-- `uncontracted_factors`: the model log-factors whose inputs do not
intersect `model_measure_vars` (lines 120-125). -/
def uncontractedFactorsOf (mtr gtr : Trace) : List Funsor :=
  (modelTermsOf mtr).log_factors.filter
    (fun f => ¬ (modelMeasureVarsOf mtr gtr ∩ f.inputs).Nonempty)

/-- `contracted_costs = [model_terms["scale"] * f for f in
partial_sum_product(ops.logaddexp, ops.add, model_terms["log_measures"] +
contracted_factors, plates=plate_vars, eliminate=model_measure_vars)]`
(lines 127-136). -/
def contractedCostsOf (mtr gtr : Trace) : List Funsor :=
  (pSumProd .logaddexp .add
      ((modelTermsOf mtr).log_measures ++ contractedFactorsOf mtr gtr)
      (plateVarsOf mtr gtr) (modelMeasureVarsOf mtr gtr)).map
    (fun f => Funsor.mul (modelTermsOf mtr).scale f)

/-- `costs = contracted_costs + uncontracted_factors; costs += [-f for f in
guide_terms["log_factors"]]` (lines 139-140). -/
def costsOf (mtr gtr : Trace) : List Funsor :=
  (contractedCostsOf mtr gtr ++ uncontractedFactorsOf mtr gtr) ++
    (guideTermsOf gtr).log_factors.map Funsor.neg

/-- The `targets` dictionary (lines 144-149): one zero-valued `Constant`
placeholder per distinct cost input-variable set, keyed by that set, in
first-occurrence order (Python dicts preserve insertion order). -/
def targetsOf (mtr gtr : Trace) : List (Finset String × Funsor) :=
  (costsOf mtr gtr).foldl
    (fun acc cost =>
      if acc.any (fun p => p.1 = cost.inputs) then acc
      else acc ++ [(cost.inputs, Funsor.constant cost.inputs 0)])
    []

/-- `logzq = sum_product(ops.logaddexp, ops.add, guide_terms["log_measures"] +
list(targets.values()), plates=plate_vars, eliminate=(plate_vars |
guide_terms["measure_vars"]))`, recorded on an `AdjointTape` (lines 150-157). -/
def logzqOf (mtr gtr : Trace) : Funsor :=
  sumProd .logaddexp .add
    ((guideTermsOf gtr).log_measures ++ (targetsOf mtr gtr).map (fun p => p.2))
    (plateVarsOf mtr gtr)
    (plateVarsOf mtr gtr ∪ (guideTermsOf gtr).measure_vars)

/-- `log_measures = tape.adjoint(ops.logaddexp, ops.add, logzq,
tuple(targets.values()))` (lines 158-160): symbolically, the adjoint call
yields exactly one adjoint term per requested placeholder, keyed like
`targets`. -/
def logMeasuresOf (mtr gtr : Trace) : List (Finset String × Funsor) :=
  (targetsOf mtr gtr).map
    (fun p => (p.1, Funsor.adj .logaddexp .add (logzqOf mtr gtr) p.2))

/-- The ELBO contribution of one cost term (lines 164-177):
`Integrate(log_measure, cost, measure_vars).reduce(ops.add, plate_vars &
frozenset(cost.inputs))` with `measure_vars = (frozenset(cost.inputs) -
plate_vars) - frozenset({"num_particles_vectorized"})` and `log_measure =
log_measures[targets[cost.input_vars]]` (looked up by the cost's
input-variable set; the lookup never fails because `targets` was built from
`costs`, so the `none` branch below is unreachable). -/
def elboTermOf (mtr gtr : Trace) (cost : Funsor) : Funsor :=
  let log_measure :=
    match (logMeasuresOf mtr gtr).find? (fun p => p.1 = cost.inputs) with
    | some p => p.2
    | none => Funsor.lit 0
  let measure_vars :=
    (cost.inputs \ plateVarsOf mtr gtr) \ {"num_particles_vectorized"}
  Funsor.reduce .add (plateVarsOf mtr gtr ∩ cost.inputs)
    (Funsor.integrate log_measure cost measure_vars)

/-- `elbo = to_funsor(0, output=funsor.Real)` followed by `elbo += elbo_term
...` over all costs (lines 163-177). -/
def elboSumOf (mtr gtr : Trace) : Funsor :=
  (costsOf mtr gtr).foldl
    (fun elbo cost => Funsor.addF elbo (elboTermOf mtr gtr cost))
    (Funsor.lit 0)

/-- `elbo = elbo.reduce(funsor.ops.mean)` (line 179) followed by `return
-to_data(apply_optimizer(elbo))` (line 181).  `apply_optimizer` and `to_data`
are value-preserving conversions of the external funsor library and are not
represented; the result is the negated mean-reduced ELBO expression. -/
def differentiableLossOf (mtr gtr : Trace) : Funsor :=
  Funsor.neg (Funsor.reduceAll .mean (elboSumOf mtr gtr))

/-! ## The tracing phase (trace_elbo.py lines 96-111)

`differentiable_loss` first runs `guide_tr = trace(guide).get_trace(...)`,
then `model_tr = trace(replay(model, trace=guide_tr)).get_trace(...)`, and
only then extracts terms from the two traces.  The `trace` and `replay`
effect handlers live in `pyro.contrib.funsor.handlers`, outside the provided
sources, so they are modelled from the spec on a minimal program type. -/

/-- A sample statement of a straight-line probabilistic program: the site
name and the value the site would take when actually sampled. -/
structure ProgSite where
  name : String
  freshValue : Nat
  deriving DecidableEq, Repr

/-- A straight-line probabilistic program: its sample statements in order. -/
abbrev Program := List ProgSite

/-- An entry of a recorded execution trace. -/
structure TraceEntry where
  name : String
  value : Nat
  deriving DecidableEq, Repr

/-- Modelled from the spec: the `trace` effect handler
(`pyro.contrib.funsor.handlers.trace`, not under the provided sources)
records an execution trace with one entry per sample site, in program
order. -/
def getTrace (p : Program) : List TraceEntry :=
  p.map (fun s => ⟨s.name, s.freshValue⟩)

/-- Modelled from the spec: the `replay` handler
(`pyro.contrib.funsor.handlers.replay`, not under the provided sources)
substitutes guide sample values at model sites of the same name. -/
def replayProgram (p : Program) (gtr : List TraceEntry) : Program :=
  p.map (fun s =>
    match gtr.find? (fun e => e.name = s.name) with
    | some e => { s with freshValue := e.value }
    | none => s)

/-- The successive phases of `differentiable_loss` lines 107-111. -/
inductive Phase where
  | traceGuide
  | traceModel
  | extractTerms
  deriving DecidableEq, Repr

/-- The tracing phase of `differentiable_loss` (lines 107-111): trace the
guide, then trace the model replayed against the guide trace; the returned
phase list records the statement order (guide traced first, model second,
term extraction last). -/
def tracingPhase (model guide : Program) :
    (List TraceEntry × List TraceEntry) × List Phase :=
  let gtr := getTrace guide
  let mtr := getTrace (replayProgram model gtr)
  ((gtr, mtr), [Phase.traceGuide, Phase.traceModel, Phase.extractTerms])

end PyroFunsor

namespace PyroSEIR

/-! ## SEIR compartmental models (`pyro/contrib/epidemiology/seir.py`)

The compartment dictionaries `{"S": ..., "E": ..., "I": ...}` hold integer
counts (torch tensors of counts in the source); we embed them over `ℤ`. -/

/-- The explicit compartments of the SEIR models (`R` is implicit:
`R = population - S - E - I`). -/
structure SEIRState where
  S : ℤ
  E : ℤ
  I : ℤ
  deriving DecidableEq, Repr

/-- The implicit recovered compartment `R = population - S - E - I`. -/
def implicitR (population : ℤ) (s : SEIRState) : ℤ :=
  population - s.S - s.E - s.I

/-- The compartment update of `SimpleSEIRModel.transition_fwd` (seir.py lines
103-106): `S -= S2E; E += S2E - E2I; I += E2I - I2R`. -/
def simpleTransitionFwdUpdate (state : SEIRState) (S2E E2I I2R : ℤ) : SEIRState :=
  { S := state.S - S2E
    E := state.E + S2E - E2I
    I := state.I + E2I - I2R }

/-- The compartment update of `OverdispersedSEIRModel.transition_fwd`
(seir.py lines 247-250), identical to the simple model's. -/
def overdispersedTransitionFwdUpdate (state : SEIRState) (S2E E2I I2R : ℤ) :
    SEIRState :=
  { S := state.S - S2E
    E := state.E + S2E - E2I
    I := state.I + E2I - I2R }

/-- The flow recovery of `SimpleSEIRModel.transition_bwd` (seir.py lines
117-119): `S2E = prev["S"] - curr["S"]; E2I = prev["E"] - curr["E"] + S2E;
I2R = prev["I"] - curr["I"] + E2I`. -/
def simpleTransitionBwdFlows (prev curr : SEIRState) : ℤ × ℤ × ℤ :=
  let S2E := prev.S - curr.S
  let E2I := prev.E - curr.E + S2E
  let I2R := prev.I - curr.I + E2I
  (S2E, E2I, I2R)

/-- The flow recovery of `OverdispersedSEIRModel.transition_bwd` (seir.py
lines 261-263), identical to the simple model's. -/
def overdispersedTransitionBwdFlows (prev curr : SEIRState) : ℤ × ℤ × ℤ :=
  let S2E := prev.S - curr.S
  let E2I := prev.E - curr.E + S2E
  let I2R := prev.I - curr.I + E2I
  (S2E, E2I, I2R)

/-- A Python number, distinguishing `int` from `float` for the
`isinstance(x, float)` assertions of the constructors. -/
inductive PyNum where
  | int (n : ℤ)
  | float (q : ℚ)
  deriving DecidableEq, Repr

/-- Modelled from the spec: `CompartmentalModel.__init__`
(`pyro/contrib/epidemiology/compartmental.py`, not under the provided
sources) stores the compartment tuple, the duration and the population on
the model. -/
structure CompartmentalBase where
  compartments : List String
  duration : Nat
  population : ℤ
  deriving DecidableEq, Repr

/-- The data stored by a successful `SimpleSEIRModel.__init__` /
`OverdispersedSEIRModel.__init__` (both store the same fields). -/
structure SEIRModelData where
  base : CompartmentalBase
  incubation_time : ℚ
  recovery_time : ℚ
  timeSeries : List ℚ
  deriving DecidableEq, Repr

/-- `SimpleSEIRModel.__init__` (seir.py lines 36-49): `compartments =
("S","E","I")`, `duration = len(data)`, then `assert
isinstance(incubation_time, float); assert incubation_time > 1` and likewise
for `recovery_time`.  A failed assertion is embedded as `none`. -/
def simpleSEIRInit (population : ℤ) (incubation_time recovery_time : PyNum)
    (timeSeries : List ℚ) : Option SEIRModelData :=
  let base := CompartmentalBase.mk ["S", "E", "I"] timeSeries.length population
  match incubation_time, recovery_time with
  | .float ti, .float tr =>
      if 1 < ti then
        if 1 < tr then some ⟨base, ti, tr, timeSeries⟩ else none
      else none
  | _, _ => none

/-- `OverdispersedSEIRModel.__init__` (seir.py lines 172-185), identical to
the simple model's constructor. -/
def overdispersedSEIRInit (population : ℤ)
    (incubation_time recovery_time : PyNum) (timeSeries : List ℚ) :
    Option SEIRModelData :=
  let base := CompartmentalBase.mk ["S", "E", "I"] timeSeries.length population
  match incubation_time, recovery_time with
  | .float ti, .float tr =>
      if 1 < ti then
        if 1 < tr then some ⟨base, ti, tr, timeSeries⟩ else none
      else none
  | _, _ => none

/-- `SimpleSEIRModel.initialize` (seir.py lines 85-87): `{"S": population -
1, "E": 0, "I": 1}`. -/
def simpleSEIRInitialize (m : SEIRModelData) : SEIRState :=
  { S := m.base.population - 1, E := 0, I := 1 }

/-- `OverdispersedSEIRModel.initialize` (seir.py lines 228-230): `{"S":
population - 1, "E": 0, "I": 1}`. -/
def overdispersedSEIRInitialize (m : SEIRModelData) : SEIRState :=
  { S := m.base.population - 1, E := 0, I := 1 }

end PyroSEIR

namespace PyroHMM

/-! ## HMM example models (`examples/contrib/funsor/hmm.py`)

`model_0` (lines 94-133) and `model_1` (lines 184-227) are embedded as
generators of the list of sample sites they create, in program order.
Distribution expressions are kept symbolic: what matters for the claims is
which distribution each site uses and on which previously sampled hidden
state its parameters are indexed.  The `pyro.sample` / `pyro.plate` /
`pyro.markov` machinery lives in pyro core, outside the provided sources; its
effect here is only what the spec describes (creating named sites inside
plate and markov contexts), which the site records capture directly. -/

/-- The hidden-state value used to index a distribution's parameters: either
the Python integer `0` that initialises `x` before the markov loop, or the
value of a previously sampled site. -/
inductive StateRef where
  | intState (v : Nat)
  | site (name : String)
  deriving DecidableEq, Repr

/-- A reference to the observed data passed via `obs=`:
`sequencesEntry i t` is `sequence[t]` with `sequence = sequences[i, :length]`
(model_0, line 132), and `sequencesBatch t` is `sequences[batch, t]`
(model_1, line 226). -/
inductive ObsRef where
  | sequencesEntry (i t : Nat)
  | sequencesBatch (t : Nat)
  deriving DecidableEq, Repr

/-- The distributions appearing in `model_0` and `model_1`. -/
inductive HmmDist where
  /-- `dist.Dirichlet(0.9 * torch.eye(hidden_dim) + 0.1).to_event(1)`. -/
  | dirichletPrior
  /-- `dist.Beta(0.1, 0.9).expand([hidden_dim, data_dim]).to_event(2)`. -/
  | betaPrior
  /-- `dist.Categorical(probs[idx])`: a Categorical whose probability row is
  selected by the hidden-state value `idx`. -/
  | categoricalIndexed (probsParam : String) (idx : StateRef)
  /-- `dist.Bernoulli(probs[state])`: the emission distribution, indexed by
  the current hidden state. -/
  | bernoulliEmission (probsParam : String) (state : StateRef)
  deriving DecidableEq, Repr

/-- A sample site created by an HMM example model. -/
structure HmmSite where
  name : String
  dist : HmmDist
  /-- Whether the site carries `infer={"enumerate": "parallel"}`. -/
  enumParallel : Bool
  /-- The observation passed via `obs=`, if any. -/
  obs : Option ObsRef
  /-- Whether the site is created inside the `pyro.markov` loop body. -/
  inMarkov : Bool
  /-- The enclosing plates, outermost first. -/
  plates : List String
  /-- Whether the site is inside a `handlers.mask` context. -/
  masked : Bool
  deriving DecidableEq, Repr

/-- The site name `"x_{}_{}".format(i, t)` of model_0. -/
def xName0 (i t : Nat) : String := s!"x_{i}_{t}"

/-- The site name `"y_{}_{}".format(i, t)` of model_0. -/
def yName0 (i t : Nat) : String := s!"y_{i}_{t}"

/-- The hidden-state site of model_0 at sequence `i`, time `t` (hmm.py lines
123-127): sampled from `Categorical(probs_x[x])` where `x` is `0` at `t = 0`
and the previous site's value afterwards, with parallel enumeration, inside
the markov loop. -/
def model0XSite (i t : Nat) : HmmSite :=
  { name := xName0 i t
    dist := .categoricalIndexed "probs_x"
      (if t = 0 then .intState 0 else .site (xName0 i (t - 1)))
    enumParallel := true
    obs := none
    inMarkov := true
    plates := ["sequences"]
    masked := false }

/-- The emission site of model_0 at sequence `i`, time `t` (hmm.py lines
128-133): `Bernoulli(probs_y[x.squeeze(-1)])` observed at `sequence[t]`,
inside the tones plate. -/
def model0YSite (i t : Nat) : HmmSite :=
  { name := yName0 i t
    dist := .bernoulliEmission "probs_y" (.site (xName0 i t))
    enumParallel := false
    obs := some (.sequencesEntry i t)
    inMarkov := true
    plates := ["sequences", "tones"]
    masked := false }

/-- The prior sites of model_0 (hmm.py lines 97-111), inside
`handlers.mask(mask=include_prior)`. -/
def model0Priors : List HmmSite :=
  [ { name := "probs_x", dist := .dirichletPrior, enumParallel := false,
      obs := none, inMarkov := false, plates := [], masked := true },
    { name := "probs_y", dist := .betaPrior, enumParallel := false,
      obs := none, inMarkov := false, plates := [], masked := true } ]

/-- The sites created by `model_0` (hmm.py lines 94-133): the priors, then
for each sequence index `i` of the minibatch, for each time step
`t < lengths[i]` of the markov loop, the hidden-state site and the emission
site. -/
def model0Sites (lengths : List Nat) (batch : List Nat) : List HmmSite :=
  model0Priors ++
    batch.flatMap (fun i =>
      (List.range (lengths.getD i 0)).flatMap (fun t =>
        [model0XSite i t, model0YSite i t]))

/-- The site name `"x_{}".format(t)` of model_1. -/
def xName1 (t : Nat) : String := s!"x_{t}"

/-- The site name `"y_{}".format(t)` of model_1. -/
def yName1 (t : Nat) : String := s!"y_{t}"

/-- The hidden-state site of model_1 at time `t` (hmm.py lines 217-221). -/
def model1XSite (t : Nat) : HmmSite :=
  { name := xName1 t
    dist := .categoricalIndexed "probs_x"
      (if t = 0 then .intState 0 else .site (xName1 (t - 1)))
    enumParallel := true
    obs := none
    inMarkov := true
    plates := ["sequences"]
    masked := true }

/-- The emission site of model_1 at time `t` (hmm.py lines 222-227). -/
def model1YSite (t : Nat) : HmmSite :=
  { name := yName1 t
    dist := .bernoulliEmission "probs_y" (.site (xName1 t))
    enumParallel := false
    obs := some (.sequencesBatch t)
    inMarkov := true
    plates := ["sequences", "tones"]
    masked := true }

/-- The prior sites of model_1 (hmm.py lines 193-201). -/
def model1Priors : List HmmSite :=
  [ { name := "probs_x", dist := .dirichletPrior, enumParallel := false,
      obs := none, inMarkov := false, plates := [], masked := true },
    { name := "probs_y", dist := .betaPrior, enumParallel := false,
      obs := none, inMarkov := false, plates := [], masked := true } ]

/-- The number of markov time steps of model_1 (hmm.py line 215):
`range(max_length if args.jit else lengths.max())`. -/
def model1TimeSteps (maxLength : Nat) (lengths : List Nat) (jit : Bool) : Nat :=
  if jit then maxLength else lengths.foldr max 0

/-- The sites created by `model_1` (hmm.py lines 184-227): the priors, then
for each time step of the markov loop (inside the vectorized sequences
plate), the hidden-state site and the emission site. -/
def model1Sites (maxLength : Nat) (lengths : List Nat) (jit : Bool) :
    List HmmSite :=
  model1Priors ++
    (List.range (model1TimeSteps maxLength lengths jit)).flatMap (fun t =>
      [model1XSite t, model1YSite t])

end PyroHMM

namespace PyroFunsor

/-! ## Concrete example traces

Small concrete traces used to instantiate the theorems about
`terms_from_trace` and `differentiable_loss` at explicit inputs. -/

/-- An enumerated model-only discrete site `z`: it carries a log-measure, so
it becomes a measure variable of the model. -/
def exZNode : Node :=
  { type := "sample", name := "z", fnName := "Categorical",
    do_not_score := false, cond_indep_stack := [],
    funsor := ⟨some (.atom 0 {"z"}), .atom 1 {"z"}, .atom 2 {"z"}⟩,
    scale := 1, markovValue := [], is_observed := false,
    replay_active := false, replay_skipped := false }

/-- An observed site whose log-probability depends on `z`. -/
def exObsNode : Node :=
  { type := "sample", name := "obs", fnName := "Bernoulli",
    do_not_score := false, cond_indep_stack := [],
    funsor := ⟨none, .atom 3 ∅, .atom 4 {"z"}⟩,
    scale := 1, markovValue := [], is_observed := true,
    replay_active := false, replay_skipped := false }

/-- A model site `w` replayed from the guide (no log-measure). -/
def exWModelNode : Node :=
  { type := "sample", name := "w", fnName := "Normal",
    do_not_score := false, cond_indep_stack := [],
    funsor := ⟨none, .atom 5 ∅, .atom 6 ∅⟩,
    scale := 1, markovValue := [], is_observed := false,
    replay_active := true, replay_skipped := false }

/-- The guide's latent site `w`, carrying a log-measure. -/
def exWGuideNode : Node :=
  { type := "sample", name := "w", fnName := "Normal",
    do_not_score := false, cond_indep_stack := [],
    funsor := ⟨some (.atom 7 {"w"}), .atom 9 ∅, .atom 8 {"w"}⟩,
    scale := 1, markovValue := [], is_observed := false,
    replay_active := false, replay_skipped := false }

/-- A concrete model trace: an enumerated discrete site, an observation, and
a replayed site. -/
def exMtr : Trace := [exZNode, exObsNode, exWModelNode]

/-- A concrete guide trace with a single latent site `w`. -/
def exGtr : Trace := [exWGuideNode]

/-- A markov-chain bookkeeping node with one step `("x_0", "x_1", "x_2")`. -/
def exMarkovNode : Node :=
  { type := "markov_chain", name := "time", fnName := "",
    do_not_score := false, cond_indep_stack := [],
    funsor := ⟨none, .atom 30 ∅, .atom 31 ∅⟩,
    scale := 1, markovValue := [["x_0", "x_1", "x_2"]], is_observed := false,
    replay_active := false, replay_skipped := false }

/-- The `k`-th hidden-state site of the markov example, inside a vectorized
plate `plate1` and carrying a log-measure. -/
def exXNode (k : Nat) : Node :=
  { type := "sample", name := s!"x_{k}", fnName := "Categorical",
    do_not_score := false, cond_indep_stack := [⟨"plate1", true⟩],
    funsor := ⟨some (.atom (40 + k) {s!"x_{k}"}), .atom (50 + k) ∅,
      .atom (60 + k) ∅⟩,
    scale := 1, markovValue := [], is_observed := false,
    replay_active := false, replay_skipped := false }

/-- A concrete trace containing a markov chain and its hidden-state sites. -/
def exMarkovTr : Trace := [exMarkovNode, exXNode 0, exXNode 1, exXNode 2]

/-- The contracted cost term produced by `differentiable_loss` on `exMtr` /
`exGtr`: the model scale times the partial contraction of the model
log-measure and the two `z`-dependent log-factors. -/
def exContractedCost : Funsor :=
  .mul (.lit 1)
    (.psp .logaddexp .add
      [.atom 0 {"z"}, .mul (.atom 2 {"z"}) (.lit 1),
        .mul (.atom 4 {"z"}) (.lit 1)]
      ∅ {"z"})

end PyroFunsor

namespace PyroSEIR

/-- **C8**: the SEIR transition step conserves total population.  After the
`transition_fwd` compartment updates of both `SimpleSEIRModel` and
`OverdispersedSEIRModel`, the sum `S + E + I` decreases by exactly `I2R`, so
the total `S + E + I + R` with implicit `R = population - S - E - I` remains
equal to `population`. -/
theorem seir_transition_fwd_conserves_population (population : ℤ)
    (state : SEIRState) (S2E E2I I2R : ℤ) :
    ((simpleTransitionFwdUpdate state S2E E2I I2R).S +
        (simpleTransitionFwdUpdate state S2E E2I I2R).E +
        (simpleTransitionFwdUpdate state S2E E2I I2R).I =
      state.S + state.E + state.I - I2R)
    ∧ ((simpleTransitionFwdUpdate state S2E E2I I2R).S +
        (simpleTransitionFwdUpdate state S2E E2I I2R).E +
        (simpleTransitionFwdUpdate state S2E E2I I2R).I +
        implicitR population (simpleTransitionFwdUpdate state S2E E2I I2R) =
      population)
    ∧ ((overdispersedTransitionFwdUpdate state S2E E2I I2R).S +
        (overdispersedTransitionFwdUpdate state S2E E2I I2R).E +
        (overdispersedTransitionFwdUpdate state S2E E2I I2R).I =
      state.S + state.E + state.I - I2R)
    ∧ ((overdispersedTransitionFwdUpdate state S2E E2I I2R).S +
        (overdispersedTransitionFwdUpdate state S2E E2I I2R).E +
        (overdispersedTransitionFwdUpdate state S2E E2I I2R).I +
        implicitR population (overdispersedTransitionFwdUpdate state S2E E2I I2R) =
      population) := by
  refine ⟨?_, ?_, ?_, ?_⟩ <;>
    simp [simpleTransitionFwdUpdate, overdispersedTransitionFwdUpdate,
      implicitR] <;> ring

/-- **C9**: `transition_bwd`'s flow recovery is the exact inverse of
`transition_fwd`'s state update: if `curr` is produced from `prev` by the
forward compartment updates with flows `(S2E, E2I, I2R)`, the backward
expressions recover precisely those flows, for both SEIR models. -/
theorem seir_transition_bwd_inverts_fwd (prev : SEIRState) (S2E E2I I2R : ℤ) :
    simpleTransitionBwdFlows prev (simpleTransitionFwdUpdate prev S2E E2I I2R) =
      (S2E, E2I, I2R)
    ∧ overdispersedTransitionBwdFlows prev
        (overdispersedTransitionFwdUpdate prev S2E E2I I2R) =
      (S2E, E2I, I2R) := by
  constructor <;>
    simp [simpleTransitionBwdFlows, simpleTransitionFwdUpdate,
      overdispersedTransitionBwdFlows, overdispersedTransitionFwdUpdate,
      Prod.ext_iff] <;> omega

/-- **C10**: `SimpleSEIRModel` and `OverdispersedSEIRModel` construction
fails with an assertion error unless `incubation_time` and `recovery_time`
are both floats strictly greater than 1; when construction succeeds, the
model's duration equals the length of the data series and `initialize`
returns `S = population - 1`, `E = 0`, `I = 1`. -/
theorem seir_init_validation (population : ℤ) (it rt : PyNum)
    (timeSeries : List ℚ) :
    ((simpleSEIRInit population it rt timeSeries).isSome ↔
      ∃ ti tr, it = .float ti ∧ rt = .float tr ∧ 1 < ti ∧ 1 < tr)
    ∧ (∀ m, simpleSEIRInit population it rt timeSeries = some m →
        m.base.duration = timeSeries.length ∧
        simpleSEIRInitialize m = ⟨population - 1, 0, 1⟩)
    ∧ ((overdispersedSEIRInit population it rt timeSeries).isSome ↔
      ∃ ti tr, it = .float ti ∧ rt = .float tr ∧ 1 < ti ∧ 1 < tr)
    ∧ (∀ m, overdispersedSEIRInit population it rt timeSeries = some m →
        m.base.duration = timeSeries.length ∧
        overdispersedSEIRInitialize m = ⟨population - 1, 0, 1⟩) := by
  refine ⟨?_, ?_, ?_, ?_⟩
  · cases it with
    | int n => simp [simpleSEIRInit]
    | float ti =>
      cases rt with
      | int n => simp [simpleSEIRInit]
      | float tr =>
        by_cases h1 : 1 < ti <;> by_cases h2 : 1 < tr <;>
          simp [simpleSEIRInit, h1, h2]
  · intro m hm
    cases it with
    | int n => simp [simpleSEIRInit] at hm
    | float ti =>
      cases rt with
      | int n => simp [simpleSEIRInit] at hm
      | float tr =>
        by_cases h1 : 1 < ti <;> by_cases h2 : 1 < tr <;>
          simp [simpleSEIRInit, h1, h2] at hm
        subst hm
        exact ⟨rfl, rfl⟩
  · cases it with
    | int n => simp [overdispersedSEIRInit]
    | float ti =>
      cases rt with
      | int n => simp [overdispersedSEIRInit]
      | float tr =>
        by_cases h1 : 1 < ti <;> by_cases h2 : 1 < tr <;>
          simp [overdispersedSEIRInit, h1, h2]
  · intro m hm
    cases it with
    | int n => simp [overdispersedSEIRInit] at hm
    | float ti =>
      cases rt with
      | int n => simp [overdispersedSEIRInit] at hm
      | float tr =>
        by_cases h1 : 1 < ti <;> by_cases h2 : 1 < tr <;>
          simp [overdispersedSEIRInit, h1, h2] at hm
        subst hm
        exact ⟨rfl, rfl⟩

/-- Witness for C10 at a concrete input: `population = 1000`,
`incubation_time = 5.5`, `recovery_time = 14.0`, a data series of length 3. -/
theorem seir_init_validation_witness :
    simpleSEIRInit 1000 (PyNum.float (11 / 2)) (PyNum.float 14) [2, 5, 9] =
      some ⟨⟨["S", "E", "I"], 3, 1000⟩, 11 / 2, 14, [2, 5, 9]⟩
    ∧ (⟨⟨["S", "E", "I"], 3, 1000⟩, 11 / 2, 14,
        [2, 5, 9]⟩ : SEIRModelData).base.duration = [(2 : ℚ), 5, 9].length
    ∧ simpleSEIRInitialize ⟨⟨["S", "E", "I"], 3, 1000⟩, 11 / 2, 14, [2, 5, 9]⟩ =
        ⟨1000 - 1, 0, 1⟩ := by
  have h : simpleSEIRInit 1000 (PyNum.float (11 / 2)) (PyNum.float 14) [2, 5, 9] =
      some ⟨⟨["S", "E", "I"], 3, 1000⟩, 11 / 2, 14, [2, 5, 9]⟩ := by
    simp [simpleSEIRInit]
    norm_num
  have h2 := (seir_init_validation 1000 (PyNum.float (11 / 2)) (PyNum.float 14)
    [2, 5, 9]).2.1 _ h
  exact ⟨h, h2.1, h2.2⟩

end PyroSEIR

namespace PyroHMM

/-- **C7**: the HMM example models are generative programs with discrete
latent state: at every time step `t` the hidden state `x` is sampled from a
`Categorical` whose probabilities are indexed by the previous hidden state
(the initial Python integer `0` at `t = 0`, the previous `x` site afterwards),
inside the `pyro.markov` loop, annotated for parallel enumeration; and the
emission `y[t]` is a sample site conditioned on the observed sequence data.
Stated for `model_0` and `model_1`. -/
theorem hmm_models_hidden_state_structure (lengths batch : List Nat)
    (maxLength : Nat) (jit : Bool) :
    (∀ i ∈ batch, ∀ t, t < lengths.getD i 0 →
      model0XSite i t ∈ model0Sites lengths batch ∧
      model0YSite i t ∈ model0Sites lengths batch)
    ∧ (∀ i t,
        (model0XSite i t).dist =
          HmmDist.categoricalIndexed "probs_x"
            (if t = 0 then StateRef.intState 0
             else StateRef.site (xName0 i (t - 1))) ∧
        (model0XSite i t).enumParallel = true ∧
        (model0XSite i t).inMarkov = true ∧
        (model0XSite i t).obs = none ∧
        (model0YSite i t).dist =
          HmmDist.bernoulliEmission "probs_y" (StateRef.site (xName0 i t)) ∧
        (model0YSite i t).obs = some (ObsRef.sequencesEntry i t) ∧
        (model0YSite i t).inMarkov = true)
    ∧ (∀ t, t < model1TimeSteps maxLength lengths jit →
      model1XSite t ∈ model1Sites maxLength lengths jit ∧
      model1YSite t ∈ model1Sites maxLength lengths jit)
    ∧ (∀ t,
        (model1XSite t).dist =
          HmmDist.categoricalIndexed "probs_x"
            (if t = 0 then StateRef.intState 0
             else StateRef.site (xName1 (t - 1))) ∧
        (model1XSite t).enumParallel = true ∧
        (model1XSite t).inMarkov = true ∧
        (model1XSite t).obs = none ∧
        (model1YSite t).dist =
          HmmDist.bernoulliEmission "probs_y" (StateRef.site (xName1 t)) ∧
        (model1YSite t).obs = some (ObsRef.sequencesBatch t) ∧
        (model1YSite t).inMarkov = true) := by
  refine ⟨?_, ?_, ?_, ?_⟩
  · intro i hi t ht
    constructor <;>
      · simp only [model0Sites, List.mem_append, List.mem_flatMap,
          List.mem_range]
        right
        exact ⟨i, hi, t, ht, by simp⟩
  · intro i t
    exact ⟨rfl, rfl, rfl, rfl, rfl, rfl, rfl⟩
  · intro t ht
    constructor <;>
      · simp only [model1Sites, List.mem_append, List.mem_flatMap,
          List.mem_range]
        right
        exact ⟨t, ht, by simp⟩
  · intro t
    exact ⟨rfl, rfl, rfl, rfl, rfl, rfl, rfl⟩

/-- Witness for C7 at a concrete input: one sequence of length 2
(`lengths = [2]`, `batch = [0]`), and two model_1 time steps. -/
theorem hmm_models_hidden_state_structure_witness :
    ((0 ∈ ([0] : List Nat)) ∧ 1 < [2].getD 0 0 ∧
      (model0XSite 0 1 ∈ model0Sites [2] [0] ∧
       model0YSite 0 1 ∈ model0Sites [2] [0]))
    ∧ (1 < model1TimeSteps 2 [2] false ∧
      (model1XSite 1 ∈ model1Sites 2 [2] false ∧
       model1YSite 1 ∈ model1Sites 2 [2] false)) :=
  ⟨⟨by decide, by decide,
      (hmm_models_hidden_state_structure [2] [0] 2 false).1 0 (by decide) 1
        (by decide)⟩,
    ⟨by decide,
      (hmm_models_hidden_state_structure [2] [0] 2 false).2.2.1 1 (by decide)⟩⟩

end PyroHMM

namespace PyroFunsor


/-- The model trace produced by replaying against a guide trace keeps the
model's site names. -/
theorem getTrace_replay_names (model : Program) (gtr : List TraceEntry) :
    (getTrace (replayProgram model gtr)).map (fun e => e.name) =
      model.map (fun s => s.name) := by
  simp only [getTrace, replayProgram, List.map_map]
  apply List.map_congr_left
  intro s _
  rcases h : gtr.find? (fun e => e.name = s.name) with _ | e <;> simp [h]

/-- At a model site whose name the guide trace contains, the replayed model
trace takes the guide's value. -/
theorem getTrace_replay_getElem (model : Program) (gtr : List TraceEntry)
    (i : Nat) (h : i < model.length) (e : TraceEntry)
    (he : gtr.find? (fun en => en.name = (model.get ⟨i, h⟩).name) = some e) :
    (getTrace (replayProgram model gtr))[i]? =
      some ⟨(model.get ⟨i, h⟩).name, e.value⟩ := by
  simp only [getTrace, replayProgram, List.map_map, List.getElem?_map]
  rw [List.getElem?_eq_getElem h]
  simp only [Option.map_some', Option.map_some, Function.comp_apply,
    List.get_eq_getElem] at he ⊢
  rw [he]

/-- **C2**: `differentiable_loss` first records an execution trace of the
guide, then an execution trace of the model replayed against that guide trace
(guide sample values substituted at model sites of the same name), and only
afterwards extracts terms from the two traces.  The recorded phase list shows
the guide traced strictly before the model, which is traced strictly before
term extraction; the model trace is computed from the completed guide trace
via `replay`, preserves site names, and takes the guide's value at every
model site whose name the guide trace contains. -/
theorem differentiable_loss_tracing_order (model guide : Program) :
    (tracingPhase model guide).1.1 = getTrace guide
    ∧ (tracingPhase model guide).1.2 =
        getTrace (replayProgram model (getTrace guide))
    ∧ (tracingPhase model guide).2 =
        [Phase.traceGuide, Phase.traceModel, Phase.extractTerms]
    ∧ List.indexOf Phase.traceGuide (tracingPhase model guide).2 <
        List.indexOf Phase.traceModel (tracingPhase model guide).2
    ∧ List.indexOf Phase.traceModel (tracingPhase model guide).2 <
        List.indexOf Phase.extractTerms (tracingPhase model guide).2
    ∧ ((tracingPhase model guide).1.2).map (fun e => e.name) =
        model.map (fun s => s.name)
    ∧ (∀ i, (h : i < model.length) → ∀ e,
        (getTrace guide).find?
            (fun en => en.name = (model.get ⟨i, h⟩).name) = some e →
        ((tracingPhase model guide).1.2)[i]? =
          some ⟨(model.get ⟨i, h⟩).name, e.value⟩) := by
  refine ⟨rfl, rfl, rfl, ?_, ?_, ?_, ?_⟩
  · show List.indexOf Phase.traceGuide
        [Phase.traceGuide, Phase.traceModel, Phase.extractTerms] <
      List.indexOf Phase.traceModel
        [Phase.traceGuide, Phase.traceModel, Phase.extractTerms]
    decide
  · show List.indexOf Phase.traceModel
        [Phase.traceGuide, Phase.traceModel, Phase.extractTerms] <
      List.indexOf Phase.extractTerms
        [Phase.traceGuide, Phase.traceModel, Phase.extractTerms]
    decide
  · exact getTrace_replay_names model (getTrace guide)
  · exact fun i h e he => getTrace_replay_getElem model (getTrace guide) i h e he

/-- Witness for C2 at a concrete input: a two-site model `a, b` and a
one-site guide sharing site `a` with value 7; the replayed model trace takes
value 7 at site `a`. -/
theorem differentiable_loss_tracing_order_witness :
    (0 < ([⟨"a", 1⟩, ⟨"b", 2⟩] : Program).length)
    ∧ (getTrace [⟨"a", 7⟩]).find?
        (fun en => en.name =
          (([⟨"a", 1⟩, ⟨"b", 2⟩] : Program).get ⟨0, by decide⟩).name) =
        some ⟨"a", 7⟩
    ∧ ((tracingPhase [⟨"a", 1⟩, ⟨"b", 2⟩] [⟨"a", 7⟩]).1.2)[0]? =
        some ⟨(([⟨"a", 1⟩, ⟨"b", 2⟩] : Program).get ⟨0, by decide⟩).name, 7⟩ :=
  ⟨by decide, by decide,
    (differentiable_loss_tracing_order [⟨"a", 1⟩, ⟨"b", 2⟩] [⟨"a", 7⟩]).2.2.2.2.2.2
      0 (by decide) ⟨"a", 7⟩ (by decide)⟩

end PyroFunsor

namespace PyroFunsor

/-- **C5**: `terms_from_trace` classifies sites as follows.  Nodes whose type
is not `"sample"`, subsample sites, and sites marked `_do_not_score`
contribute no log-measure and no log-density (and leave the scale and plate
variables unchanged).  At a processed sample site, a log-measure is appended
exactly when the site carries a `log_measure` funsor, in which case the
site's fresh non-plate variables — the inputs of its value funsor together
with its name, minus the current plate variables — are added to
`measure_vars`; and a log-density is appended exactly when the site is
observed or not replay-skipped. -/
theorem terms_from_trace_site_classification (tr : Trace) (terms : Terms)
    (node : Node) :
    ((node.type ≠ "sample" ∨ node.fnName = "_Subsample" ∨
        node.do_not_score = true) →
      (processNode tr terms node).log_measures = terms.log_measures ∧
      (processNode tr terms node).log_factors = terms.log_factors ∧
      (processNode tr terms node).scale = terms.scale ∧
      (processNode tr terms node).plate_vars = terms.plate_vars)
    ∧ (node.type = "sample" → node.fnName ≠ "_Subsample" →
        node.do_not_score = false →
      ((∀ lm, node.funsor.log_measure = some lm →
          (processNode tr terms node).log_measures =
            terms.log_measures ++ [lm] ∧
          (processNode tr terms node).measure_vars =
            terms.measure_vars ∪
              ((node.funsor.value.inputs ∪ {node.name}) \
                (terms.plate_vars ∪ frameVars node)))
        ∧ (node.funsor.log_measure = none →
            (processNode tr terms node).log_measures = terms.log_measures ∧
            (processNode tr terms node).measure_vars = terms.measure_vars)
        ∧ ((node.is_observed = true ∨ node.replay_skipped = false) →
            ∃ f, (processNode tr terms node).log_factors =
              terms.log_factors ++ [f])
        ∧ (node.is_observed = false → node.replay_skipped = true →
            (processNode tr terms node).log_factors = terms.log_factors))) := by
  constructor
  · intro hskip
    have h : node.type ≠ "sample" ∨ node.fnName = "_Subsample" ∨
        node.do_not_score := by
      rcases hskip with h | h | h
      · exact Or.inl h
      · exact Or.inr (Or.inl h)
      · exact Or.inr (Or.inr h)
    simp only [processNode]
    rw [if_pos h]
    by_cases hm : node.type = "markov_chain" <;> simp [hm]
  · intro hs hfn hdns
    have hns : ¬(node.type ≠ "sample" ∨ node.fnName = "_Subsample" ∨
        node.do_not_score) := by
      simp [hs, hfn, hdns]
    have hm : ¬(node.type = "markov_chain") := by
      rw [hs]; decide
    refine ⟨?_, ?_, ?_, ?_⟩
    · intro lm hlm
      simp only [processNode]
      rw [if_neg hns, if_neg hm]
      simp [hlm]
    · intro hlm
      simp only [processNode]
      rw [if_neg hns, if_neg hm]
      simp [hlm]
    · intro hof
      simp only [processNode]
      rw [if_neg hns, if_neg hm]
      exact ⟨_, if_pos hof⟩
    · intro hobs hrs
      have hof : ¬(node.is_observed = true ∨ node.replay_skipped = false) := by
        simp [hobs, hrs]
      simp only [processNode]
      rw [if_neg hns, if_neg hm]
      exact if_neg hof

end PyroFunsor

namespace PyroFunsor

/-- Witness for C5 at a concrete input: processing the enumerated site
`exZNode` on the initial terms appends its log-measure and adds its fresh
variables to `measure_vars`. -/
theorem terms_from_trace_site_classification_witness :
    (exZNode.type = "sample" ∧ exZNode.fnName ≠ "_Subsample" ∧
      exZNode.do_not_score = false ∧
      exZNode.funsor.log_measure = some (.atom 0 {"z"}))
    ∧ ((processNode [exZNode] initTerms exZNode).log_measures =
        initTerms.log_measures ++ [.atom 0 {"z"}] ∧
      (processNode [exZNode] initTerms exZNode).measure_vars =
        initTerms.measure_vars ∪
          ((exZNode.funsor.value.inputs ∪ {exZNode.name}) \
            (initTerms.plate_vars ∪ frameVars exZNode))) :=
  ⟨⟨rfl, by decide, rfl, rfl⟩,
    ((terms_from_trace_site_classification [exZNode] initTerms exZNode).2
        rfl (by decide) rfl).1 (.atom 0 {"z"}) rfl⟩

/-! ### Dictionary lemmas -/

/-- Setting key `k` makes `k` retrievable with the new value. -/
theorem dictGet_dictSet_same (d : List (String × α)) (k : String) (v : α) :
    dictGet (dictSet d k v) k = some v := by
  induction d with
  | nil => simp [dictSet, dictGet]
  | cons p d ih =>
    by_cases h : p.1 = k
    · simp [dictSet, dictGet, h]
    · simp only [dictSet, if_neg h]
      rw [dictGet, List.find?_cons_of_neg _ (by simp [h])]
      exact ih

/-- Setting key `q` does not affect retrieval at a different key `k`. -/
theorem dictGet_dictSet_other (d : List (String × α)) (k q : String) (v : α)
    (hkq : k ≠ q) : dictGet (dictSet d q v) k = dictGet d k := by
  induction d with
  | nil => simp [dictSet, dictGet, List.find?, Ne.symm hkq]
  | cons p d ih =>
    by_cases h : p.1 = q
    · rw [dictSet, if_pos h, dictGet,
        List.find?_cons_of_neg _ (by simp [Ne.symm hkq]), dictGet,
        List.find?_cons_of_neg _ (by simp [h, Ne.symm hkq])]
    · rw [dictSet, if_neg h]
      by_cases hpk : p.1 = k
      · rw [dictGet, List.find?_cons_of_pos _ (by simp [hpk]), dictGet,
          List.find?_cons_of_pos _ (by simp [hpk])]
      · rw [dictGet, List.find?_cons_of_neg _ (by simp [hpk]), dictGet,
          List.find?_cons_of_neg _ (by simp [hpk])]
        exact ih

/-- After setting key `q`, key `q` is present. -/
theorem dictHasKey_dictSet_same (d : List (String × α)) (q : String) (v : α) :
    dictHasKey (dictSet d q v) q = true := by
  induction d with
  | nil => simp [dictSet, dictHasKey]
  | cons p d ih =>
    by_cases h : p.1 = q
    · simp [dictSet, dictHasKey, h]
    · simp only [dictSet, if_neg h, dictHasKey, List.any_cons, Bool.or_eq_true]
      exact Or.inr ih

/-- Setting a key preserves all existing keys. -/
theorem dictHasKey_dictSet_of (d : List (String × α)) (k q : String) (v : α)
    (h : dictHasKey d k = true) : dictHasKey (dictSet d q v) k = true := by
  induction d with
  | nil => simp [dictHasKey] at h
  | cons p d ih =>
    by_cases hq : p.1 = q
    · simp only [dictHasKey, List.any_cons, Bool.or_eq_true] at h
      rcases h with h | h
      · simp only [dictSet, if_pos hq, dictHasKey, List.any_cons,
          Bool.or_eq_true]
        left
        simp only [decide_eq_true_eq] at h ⊢
        rw [← h, hq]
      · simp [dictSet, hq, dictHasKey, List.any_cons]
        right
        exact (by simpa [dictHasKey] using h)
    · simp only [dictHasKey, List.any_cons, Bool.or_eq_true] at h
      rcases h with h | h
      · simp only [dictSet, if_neg hq, dictHasKey, List.any_cons,
          Bool.or_eq_true]
        exact Or.inl h
      · simp only [dictSet, if_neg hq, dictHasKey, List.any_cons,
          Bool.or_eq_true]
        exact Or.inr (by simpa [dictHasKey] using ih (by simpa [dictHasKey] using h))

/-- A key present after a set was present before or is the set key. -/
theorem dictHasKey_of_dictSet (d : List (String × α)) (k q : String) (v : α)
    (h : dictHasKey (dictSet d q v) k = true) :
    dictHasKey d k = true ∨ k = q := by
  induction d with
  | nil =>
    simp only [dictSet, dictHasKey, List.any_cons, List.any_nil,
      Bool.or_false, decide_eq_true_eq] at h
    exact Or.inr h.symm
  | cons p d ih =>
    by_cases hq : p.1 = q
    · simp only [dictSet, if_pos hq, dictHasKey, List.any_cons,
        Bool.or_eq_true, decide_eq_true_eq] at h
      rcases h with h | h
      · exact Or.inr h.symm
      · exact Or.inl (by simp [dictHasKey, List.any_cons, Bool.or_eq_true]; right; simpa [dictHasKey] using h)
    · simp only [dictSet, if_neg hq, dictHasKey, List.any_cons,
        Bool.or_eq_true] at h
      rcases h with h | h
      · exact Or.inl (by simp [dictHasKey, List.any_cons]; left; simpa using h)
      · rcases ih (by simpa [dictHasKey] using h) with h2 | h2
        · exact Or.inl (by simp [dictHasKey, List.any_cons]; right; simpa [dictHasKey] using h2)
        · exact Or.inr h2

/-- An absent key retrieves `none`. -/
theorem dictGet_eq_none (d : List (String × α)) (k : String)
    (h : dictHasKey d k = false) : dictGet d k = none := by
  have h' : ∀ x ∈ d, ¬ x.1 = k := by
    rw [dictHasKey] at h
    intro x hx
    simpa using List.any_eq_false.mp h x hx
  have hf : List.find? (fun p => decide (p.1 = k)) d = none :=
    List.find?_eq_none.mpr (fun x hx => by simpa using h' x hx)
  simp [dictGet, hf]

end PyroFunsor

namespace PyroFunsor

/-! ### Invariant lemmas for `terms_from_trace` -/

/-- Processing a node can only grow `measure_vars`. -/
theorem processNode_measure_vars_mono (tr : Trace) (terms : Terms)
    (node : Node) :
    terms.measure_vars ⊆ (processNode tr terms node).measure_vars := by
  cases hlm : node.funsor.log_measure <;>
    simp only [processNode, hlm] <;>
    split_ifs <;>
    simp

/-- Processing a node preserves existing `plate_to_step` keys. -/
theorem processNode_hasKey_mono (tr : Trace) (terms : Terms) (node : Node)
    (k : String) (h : dictHasKey terms.plate_to_step k = true) :
    dictHasKey (processNode tr terms node).plate_to_step k = true := by
  cases hlm : node.funsor.log_measure <;>
    simp only [processNode, hlm] <;>
    split_ifs <;>
    first
      | exact h
      | exact dictHasKey_dictSet_of _ _ _ _ h

/-- A `plate_to_step` key present after processing a node was present before,
or is the name of a processed `markov_chain` node. -/
theorem processNode_hasKey_inv (tr : Trace) (terms : Terms) (node : Node)
    (k : String)
    (h : dictHasKey (processNode tr terms node).plate_to_step k = true) :
    dictHasKey terms.plate_to_step k = true ∨
      (node.type = "markov_chain" ∧ k = node.name) := by
  by_cases hm : node.type = "markov_chain"
  · have hskip : node.type ≠ "sample" ∨ node.fnName = "_Subsample" ∨
        (node.do_not_score : Prop) := Or.inl (by rw [hm]; decide)
    simp only [processNode] at h
    rw [if_pos hskip, if_pos hm] at h
    rcases dictHasKey_of_dictSet _ _ _ _ h with h2 | h2
    · exact Or.inl h2
    · exact Or.inr ⟨hm, h2⟩
  · left
    by_cases hskip : node.type ≠ "sample" ∨ node.fnName = "_Subsample" ∨
        (node.do_not_score : Prop)
    · simp only [processNode] at h
      rw [if_pos hskip, if_neg hm] at h
      exact h
    · simp only [processNode] at h
      rw [if_neg hskip, if_neg hm] at h
      exact h

/-- Processing a `markov_chain` node records its name in `plate_to_step` and
adds its previous-step measure variables to `measure_vars`. -/
theorem processNode_markov (tr : Trace) (terms : Terms) (node : Node)
    (hm : node.type = "markov_chain") :
    dictHasKey (processNode tr terms node).plate_to_step node.name = true ∧
    markovMeasureVars tr node.markovValue ⊆
      (processNode tr terms node).measure_vars := by
  have hskip : node.type ≠ "sample" ∨ node.fnName = "_Subsample" ∨
      (node.do_not_score : Prop) := Or.inl (by rw [hm]; decide)
  simp only [processNode, if_pos hm]
  rw [if_pos hskip]
  exact ⟨dictHasKey_dictSet_same _ _ _, Finset.subset_union_right⟩

/-- Processing a node only adds its own vectorized frame names to
`plate_vars`. -/
theorem processNode_plate_vars_bound (tr : Trace) (terms : Terms)
    (node : Node) :
    (processNode tr terms node).plate_vars ⊆
      terms.plate_vars ∪ frameVars node := by
  cases hlm : node.funsor.log_measure <;>
    simp only [processNode, hlm] <;>
    split_ifs <;>
    simp

end PyroFunsor

namespace PyroFunsor

/-- `measure_vars` only grows along the `terms_from_trace` loop. -/
theorem foldl_measure_vars_mono (tr : Trace) (l : List Node) (terms : Terms) :
    terms.measure_vars ⊆
      (List.foldl (processNode tr) terms l).measure_vars := by
  induction l generalizing terms with
  | nil => exact Finset.Subset.refl _
  | cons hd tl ih =>
    exact (processNode_measure_vars_mono tr terms hd).trans (ih _)

/-- `plate_to_step` keys persist along the `terms_from_trace` loop. -/
theorem foldl_hasKey_mono (tr : Trace) (l : List Node) (terms : Terms)
    (k : String) (h : dictHasKey terms.plate_to_step k = true) :
    dictHasKey (List.foldl (processNode tr) terms l).plate_to_step k =
      true := by
  induction l generalizing terms with
  | nil => exact h
  | cons hd tl ih => exact ih _ (processNode_hasKey_mono tr terms hd k h)

/-- Every `markov_chain` node of the loop records its name as a
`plate_to_step` key and its previous-step measure variables in
`measure_vars`. -/
theorem foldl_markov (tr : Trace) (l : List Node) (terms : Terms)
    (node : Node) (hmem : node ∈ l) (hm : node.type = "markov_chain") :
    dictHasKey (List.foldl (processNode tr) terms l).plate_to_step node.name =
        true ∧
    markovMeasureVars tr node.markovValue ⊆
      (List.foldl (processNode tr) terms l).measure_vars := by
  induction l generalizing terms with
  | nil => cases hmem
  | cons hd tl ih =>
    rcases List.mem_cons.mp hmem with heq | htl
    · subst heq
      constructor
      · exact foldl_hasKey_mono tr tl _ _
          (processNode_markov tr terms node hm).1
      · exact (processNode_markov tr terms node hm).2.trans
          (foldl_measure_vars_mono tr tl _)
    · exact ih _ htl

/-- A `plate_to_step` key of the loop result comes from the initial terms or
from a `markov_chain` node of the loop. -/
theorem foldl_hasKey_inv (tr : Trace) (l : List Node) (terms : Terms)
    (k : String)
    (h : dictHasKey (List.foldl (processNode tr) terms l).plate_to_step k =
      true) :
    dictHasKey terms.plate_to_step k = true ∨
      ∃ node ∈ l, node.type = "markov_chain" ∧ k = node.name := by
  induction l generalizing terms with
  | nil => exact Or.inl h
  | cons hd tl ih =>
    rcases ih _ h with h2 | ⟨node, hmem, hm, hk⟩
    · rcases processNode_hasKey_inv tr terms hd k h2 with h3 | ⟨hm, hk⟩
      · exact Or.inl h3
      · exact Or.inr ⟨hd, List.mem_cons_self _ _, hm, hk⟩
    · exact Or.inr ⟨node, List.mem_cons_of_mem _ hmem, hm, hk⟩

/-- The `plate_vars` of the loop result are bounded by the initial ones and
the frame names occurring in the loop. -/
theorem foldl_plate_vars_bound (tr : Trace) (l : List Node) (terms : Terms) :
    (List.foldl (processNode tr) terms l).plate_vars ⊆
      terms.plate_vars ∪
        (l.flatMap (fun n => n.cond_indep_stack.map (fun f => f.name))).toFinset := by
  induction l generalizing terms with
  | nil => simp
  | cons hd tl ih =>
    refine (ih _).trans ?_
    intro x hx
    rcases Finset.mem_union.mp hx with hx | hx
    · rcases Finset.mem_union.mp (processNode_plate_vars_bound tr terms hd hx)
        with hx2 | hx2
      · exact Finset.mem_union_left _ hx2
      · refine Finset.mem_union_right _ ?_
        rw [List.mem_toFinset, List.flatMap_cons, List.mem_append]
        left
        simp only [frameVars, List.mem_toFinset, List.mem_map,
          List.mem_filter] at hx2
        rcases hx2 with ⟨f, ⟨hf, _⟩, hfn⟩
        exact List.mem_map.mpr ⟨f, hf, hfn⟩
    · refine Finset.mem_union_right _ ?_
      rw [List.mem_toFinset, List.flatMap_cons, List.mem_append]
      right
      exact List.mem_toFinset.mp hx

/-- Membership in a left fold of finite-set unions. -/
theorem mem_foldl_union {β : Type} (g : β → Finset String) (l : List β)
    (init : Finset String) (v : String) :
    v ∈ l.foldl (fun acc s => acc ∪ g s) init ↔
      v ∈ init ∨ ∃ s ∈ l, v ∈ g s := by
  induction l generalizing init with
  | nil => simp
  | cons s l ih =>
    rw [List.foldl_cons, ih]
    simp [Finset.mem_union, or_assoc]

/-- Membership in `markovMeasureVars`: exactly the previous-step variables of
some step that carry a log-measure in the trace. -/
theorem mem_markovMeasureVars (tr : Trace) (steps : List (List String))
    (v : String) :
    v ∈ markovMeasureVars tr steps ↔
      ∃ step ∈ steps, v ∈ stepMiddle step ∧ nodeHasLogMeasure tr v = true := by
  rw [markovMeasureVars, mem_foldl_union]
  simp [List.mem_filter]

/-- Keys after the final `plate_to_step` update: the previous keys plus the
iterated plates. -/
theorem foldl_dictSet_hasKey (ps : List String)
    (d : List (String × List (List String)))
    (vf : String → List (List String)) (k : String) :
    dictHasKey (ps.foldl (fun acc p => dictSet acc p (vf p)) d) k = true ↔
      dictHasKey d k = true ∨ k ∈ ps := by
  induction ps generalizing d with
  | nil => simp
  | cons p ps ih =>
    rw [List.foldl_cons, ih]
    constructor
    · rintro (h | h)
      · rcases dictHasKey_of_dictSet _ _ _ _ h with h2 | h2
        · exact Or.inl h2
        · exact Or.inr (List.mem_cons.mpr (Or.inl h2))
      · exact Or.inr (List.mem_cons_of_mem _ h)
    · rintro (h | h)
      · exact Or.inl (dictHasKey_dictSet_of _ _ _ _ h)
      · rcases List.mem_cons.mp h with h2 | h2
        · subst h2
          exact Or.inl (dictHasKey_dictSet_same _ _ _)
        · exact Or.inr h2

/-- The final update leaves non-iterated keys untouched. -/
theorem foldl_dictSet_get_notmem (ps : List String)
    (d : List (String × List (List String)))
    (vf : String → List (List String)) (k : String) (hk : k ∉ ps) :
    dictGet (ps.foldl (fun acc p => dictSet acc p (vf p)) d) k =
      dictGet d k := by
  induction ps generalizing d with
  | nil => rfl
  | cons p ps ih =>
    rw [List.foldl_cons, ih _ (fun h => hk (List.mem_cons_of_mem _ h)),
      dictGet_dictSet_other _ _ _ _ (fun h => hk (List.mem_cons.mpr (Or.inl h)))]

/-- Each iterated plate ends with its computed value. -/
theorem foldl_dictSet_get_mem (ps : List String)
    (d : List (String × List (List String)))
    (vf : String → List (List String)) (k : String) (hk : k ∈ ps) :
    dictGet (ps.foldl (fun acc p => dictSet acc p (vf p)) d) k =
      some (vf k) := by
  induction ps generalizing d with
  | nil => cases hk
  | cons p ps ih =>
    by_cases h : k ∈ ps
    · exact ih _ h
    · have hkp : k = p := by
        rcases List.mem_cons.mp hk with h2 | h2
        · exact h2
        · exact absurd h2 h
      subst hkp
      rw [List.foldl_cons, foldl_dictSet_get_notmem _ _ _ _ h,
        dictGet_dictSet_same]

end PyroFunsor

namespace PyroFunsor

/-- **C6**: after `terms_from_trace` returns, the key set of the returned
`plate_to_step` dictionary contains every markov-chain name in the trace and
every variable in `plate_vars`; plates that are not markov chains are mapped
to an empty step structure; and every previous-step variable of a markov
chain that carries a log-measure is a member of `measure_vars`. -/
theorem terms_from_trace_plate_to_step (tr : Trace) :
    (∀ node ∈ tr, node.type = "markov_chain" →
      dictHasKey (termsFromTrace tr).plate_to_step node.name = true)
    ∧ (∀ p ∈ (termsFromTrace tr).plate_vars,
      dictHasKey (termsFromTrace tr).plate_to_step p = true)
    ∧ (∀ p ∈ (termsFromTrace tr).plate_vars,
      (∀ node ∈ tr, node.type = "markov_chain" → node.name ≠ p) →
      dictGet (termsFromTrace tr).plate_to_step p = some [])
    ∧ (∀ node ∈ tr, node.type = "markov_chain" →
      ∀ step ∈ node.markovValue, ∀ v ∈ stepMiddle step,
        nodeHasLogMeasure tr v = true →
        v ∈ (termsFromTrace tr).measure_vars) := by
  have hpv : ∀ p ∈ (List.foldl (processNode tr) initTerms tr).plate_vars,
      p ∈ tracePlateNames tr := by
    intro p hp
    have hb := foldl_plate_vars_bound tr tr initTerms hp
    rcases Finset.mem_union.mp hb with h | h
    · simp [initTerms] at h
    · rw [tracePlateNames, List.mem_dedup]
      exact List.mem_toFinset.mp h
  refine ⟨?_, ?_, ?_, ?_⟩
  · intro node hmem hm
    exact (foldl_dictSet_hasKey _ _ _ _).mpr
      (Or.inl (foldl_markov tr tr initTerms node hmem hm).1)
  · intro p hp
    exact (foldl_dictSet_hasKey _ _ _ _).mpr
      (Or.inr (List.mem_filter.mpr ⟨hpv _ hp, by simpa using hp⟩))
  · intro p hp hnm
    have hNoKey : dictHasKey
        (List.foldl (processNode tr) initTerms tr).plate_to_step p = false := by
      rw [← Bool.not_eq_true]
      intro h'
      rcases foldl_hasKey_inv tr tr initTerms p h' with h2 | ⟨node, hmem2, hm2, hk2⟩
      · simp [initTerms, dictHasKey] at h2
      · exact hnm node hmem2 hm2 hk2.symm
    have hnone := dictGet_eq_none _ _ hNoKey
    have hmemf : p ∈ (tracePlateNames tr).filter
        (fun q => q ∈ (List.foldl (processNode tr) initTerms tr).plate_vars) :=
      List.mem_filter.mpr ⟨hpv _ hp, by simpa using hp⟩
    have hget := foldl_dictSet_get_mem
      ((tracePlateNames tr).filter
        (fun q => q ∈ (List.foldl (processNode tr) initTerms tr).plate_vars))
      (List.foldl (processNode tr) initTerms tr).plate_to_step
      (fun q => (dictGet
        (List.foldl (processNode tr) initTerms tr).plate_to_step q).getD [])
      p hmemf
    show dictGet _ p = some []
    rw [show (termsFromTrace tr).plate_to_step =
        ((tracePlateNames tr).filter
          (fun q => q ∈ (List.foldl (processNode tr) initTerms tr).plate_vars)).foldl
          (fun acc q => dictSet acc q ((dictGet
            (List.foldl (processNode tr) initTerms tr).plate_to_step q).getD []))
          (List.foldl (processNode tr) initTerms tr).plate_to_step from rfl,
      hget]
    show some ((dictGet
      (List.foldl (processNode tr) initTerms tr).plate_to_step p).getD []) =
        some []
    rw [hnone]
    rfl
  · intro node hmem hm step hstep v hv hlm
    exact (foldl_markov tr tr initTerms node hmem hm).2
      ((mem_markovMeasureVars tr node.markovValue v).mpr ⟨step, hstep, hv, hlm⟩)

/-- Witness for C6 at a concrete input: the trace `exMarkovTr` with markov
chain `time` over step `("x_0", "x_1", "x_2")` and plate `plate1`. -/
theorem terms_from_trace_plate_to_step_witness :
    (exMarkovNode ∈ exMarkovTr ∧ exMarkovNode.type = "markov_chain" ∧
      dictHasKey (termsFromTrace exMarkovTr).plate_to_step
        exMarkovNode.name = true)
    ∧ ("plate1" ∈ (termsFromTrace exMarkovTr).plate_vars ∧
      (∀ node ∈ exMarkovTr, node.type = "markov_chain" →
        node.name ≠ "plate1") ∧
      dictGet (termsFromTrace exMarkovTr).plate_to_step "plate1" = some [])
    ∧ (["x_0", "x_1", "x_2"] ∈ exMarkovNode.markovValue ∧
      "x_1" ∈ stepMiddle ["x_0", "x_1", "x_2"] ∧
      nodeHasLogMeasure exMarkovTr "x_1" = true ∧
      "x_1" ∈ (termsFromTrace exMarkovTr).measure_vars) :=
  ⟨⟨List.mem_cons_self _ _, rfl,
      (terms_from_trace_plate_to_step exMarkovTr).1 exMarkovNode
        (List.mem_cons_self _ _) rfl⟩,
    ⟨by decide, by decide,
      (terms_from_trace_plate_to_step exMarkovTr).2.2.1 "plate1" (by decide)
        (by decide)⟩,
    ⟨by decide, by decide, rfl,
      (terms_from_trace_plate_to_step exMarkovTr).2.2.2 exMarkovNode
        (List.mem_cons_self _ _) rfl ["x_0", "x_1", "x_2"] (by decide) "x_1"
        (by decide) rfl⟩⟩

end PyroFunsor

namespace PyroFunsor

/-! ### Lemmas about the `targets` dictionary and the cost/measure pairing -/

/-- Every entry produced by the `targets` fold is a zero-valued `Constant`
placeholder keyed by its own input set. -/
theorem targets_fold_shape (l : List Funsor)
    (acc : List (Finset String × Funsor))
    (hacc : ∀ p ∈ acc, p.2 = Funsor.constant p.1 0) :
    ∀ p ∈ l.foldl
      (fun acc cost =>
        if acc.any (fun p => p.1 = cost.inputs) then acc
        else acc ++ [(cost.inputs, Funsor.constant cost.inputs 0)]) acc,
      p.2 = Funsor.constant p.1 0 := by
  induction l generalizing acc with
  | nil => exact hacc
  | cons c l ih =>
    rw [List.foldl_cons]
    apply ih
    intro q hq
    split_ifs at hq with h
    · exact hacc q hq
    · rcases List.mem_append.mp hq with h2 | h2
      · exact hacc q h2
      · rw [List.mem_singleton.mp h2]

/-- Keys of the `targets` accumulator persist through the fold. -/
theorem targets_fold_hasKey_mono (l : List Funsor)
    (acc : List (Finset String × Funsor)) (k : Finset String)
    (h : acc.any (fun p => p.1 = k) = true) :
    (l.foldl
      (fun acc cost =>
        if acc.any (fun p => p.1 = cost.inputs) then acc
        else acc ++ [(cost.inputs, Funsor.constant cost.inputs 0)]) acc).any
      (fun p => p.1 = k) = true := by
  induction l generalizing acc with
  | nil => exact h
  | cons c l ih =>
    rw [List.foldl_cons]
    apply ih
    split_ifs with hc
    · exact h
    · rw [List.any_append]
      simp [h]

/-- Every cost's input-variable set ends up as a `targets` key. -/
theorem targets_fold_covers (l : List Funsor)
    (acc : List (Finset String × Funsor)) :
    ∀ c ∈ l,
      (l.foldl
        (fun acc cost =>
          if acc.any (fun p => p.1 = cost.inputs) then acc
          else acc ++ [(cost.inputs, Funsor.constant cost.inputs 0)]) acc).any
        (fun p => p.1 = c.inputs) = true := by
  induction l generalizing acc with
  | nil => intro c hc; cases hc
  | cons c0 l ih =>
    intro c hc
    rw [List.foldl_cons]
    rcases List.mem_cons.mp hc with heq | htl
    · subst heq
      apply targets_fold_hasKey_mono
      split_ifs with h
      · exact h
      · rw [List.any_append]
        simp
    · exact ih _ c htl

/-- The `targets` keys are distinct: one placeholder per distinct input set. -/
theorem targets_fold_nodup (l : List Funsor)
    (acc : List (Finset String × Funsor))
    (hacc : (acc.map (fun p => p.1)).Nodup) :
    ((l.foldl
      (fun acc cost =>
        if acc.any (fun p => p.1 = cost.inputs) then acc
        else acc ++ [(cost.inputs, Funsor.constant cost.inputs 0)]) acc).map
      (fun p => p.1)).Nodup := by
  induction l generalizing acc with
  | nil => exact hacc
  | cons c l ih =>
    rw [List.foldl_cons]
    apply ih
    split_ifs with h
    · exact hacc
    · rw [List.map_append, List.nodup_append]
      refine ⟨hacc, List.nodup_singleton _, ?_⟩
      intro a ha hb
      rcases List.mem_map.mp ha with ⟨p, hp, hpk⟩
      rcases List.mem_map.mp hb with ⟨q, hq, hqk⟩
      rw [List.mem_singleton.mp hq] at hqk
      have : acc.any (fun p => p.1 = c.inputs) = true :=
        List.any_eq_true.mpr ⟨p, hp, by simp [hpk, ← hqk]⟩
      exact absurd this (by simpa using h)

/-- Looking up a present key in `targets` yields exactly the zero-valued
`Constant` placeholder for that key. -/
theorem targets_find (mtr gtr : Trace) (k : Finset String)
    (hk : (targetsOf mtr gtr).any (fun p => p.1 = k) = true) :
    (targetsOf mtr gtr).find? (fun p => p.1 = k) =
      some (k, Funsor.constant k 0) := by
  have hs : ((targetsOf mtr gtr).find? (fun p => p.1 = k)).isSome := by
    rw [List.find?_isSome]
    rcases List.any_eq_true.mp hk with ⟨p, hp, hpk⟩
    exact ⟨p, hp, hpk⟩
  rcases Option.isSome_iff_exists.mp hs with ⟨q, hq⟩
  have hqk : q.1 = k := by simpa using List.find?_some hq
  have hqm : q ∈ targetsOf mtr gtr := List.mem_of_find?_eq_some hq
  have hqc : q.2 = Funsor.constant q.1 0 :=
    targets_fold_shape (costsOf mtr gtr) []
      (fun p hp => absurd hp (List.not_mem_nil p)) q hqm
  rw [hq]
  have hqe : q = (k, Funsor.constant k 0) := by
    rcases q with ⟨q1, q2⟩
    simp only at hqk hqc
    rw [hqk] at hqc ⊢
    rw [hqc]
  rw [hqe]

/-- Every cost's input set is a `targets` key. -/
theorem costs_hasKey (mtr gtr : Trace) (cost : Funsor)
    (hc : cost ∈ costsOf mtr gtr) :
    (targetsOf mtr gtr).any (fun p => p.1 = cost.inputs) = true :=
  targets_fold_covers (costsOf mtr gtr) [] cost hc

/-- The adjoint dictionary pairs each cost's input set with the adjoint of
its placeholder. -/
theorem costs_find_log_measure (mtr gtr : Trace) (cost : Funsor)
    (hc : cost ∈ costsOf mtr gtr) :
    (logMeasuresOf mtr gtr).find? (fun p => p.1 = cost.inputs) =
      some (cost.inputs,
        Funsor.adj .logaddexp .add (logzqOf mtr gtr)
          (Funsor.constant cost.inputs 0)) := by
  rw [logMeasuresOf, List.find?_map]
  rw [show ((fun p : Finset String × Funsor => decide (p.1 = cost.inputs)) ∘
      (fun p : Finset String × Funsor =>
        (p.1, Funsor.adj .logaddexp .add (logzqOf mtr gtr) p.2))) =
      (fun p : Finset String × Funsor => decide (p.1 = cost.inputs)) from rfl]
  rw [targets_find mtr gtr cost.inputs (costs_hasKey mtr gtr cost hc)]
  rfl

/-- The ELBO term of a cost, with the adjoint lookup resolved. -/
theorem elboTermOf_eq (mtr gtr : Trace) (cost : Funsor)
    (hc : cost ∈ costsOf mtr gtr) :
    elboTermOf mtr gtr cost =
      Funsor.reduce .add (plateVarsOf mtr gtr ∩ cost.inputs)
        (Funsor.integrate
          (Funsor.adj .logaddexp .add (logzqOf mtr gtr)
            (Funsor.constant cost.inputs 0))
          cost
          ((cost.inputs \ plateVarsOf mtr gtr) \
            {"num_particles_vectorized"})) := by
  rw [elboTermOf, costs_find_log_measure mtr gtr cost hc]

end PyroFunsor

namespace PyroFunsor

/-- **C1**: `differentiable_loss` eliminates exactly the model-only measure
variables (those in the model's `measure_vars` but not the guide's) by a
partial sum-product contraction with `logaddexp` as the sum operation and
`add` as the product operation, passing the plate variables as plate
dimensions; a model log-factor enters this contraction if and only if its
inputs intersect the model-only measure variables, and all other log-factors
are left uncontracted. -/
theorem differentiable_loss_partial_contraction (mtr gtr : Trace) :
    contractedCostsOf mtr gtr =
      [Funsor.mul (modelTermsOf mtr).scale
        (Funsor.psp .logaddexp .add
          ((modelTermsOf mtr).log_measures ++ contractedFactorsOf mtr gtr)
          (plateVarsOf mtr gtr) (modelMeasureVarsOf mtr gtr))]
    ∧ modelMeasureVarsOf mtr gtr =
        (modelTermsOf mtr).measure_vars \ (guideTermsOf gtr).measure_vars
    ∧ (∀ v, v ∈ modelMeasureVarsOf mtr gtr ↔
        v ∈ (modelTermsOf mtr).measure_vars ∧
          v ∉ (guideTermsOf gtr).measure_vars)
    ∧ (∀ f ∈ (modelTermsOf mtr).log_factors,
        (f ∈ contractedFactorsOf mtr gtr ↔
          (modelMeasureVarsOf mtr gtr ∩ f.inputs).Nonempty) ∧
        (f ∈ uncontractedFactorsOf mtr gtr ↔
          ¬ (modelMeasureVarsOf mtr gtr ∩ f.inputs).Nonempty))
    ∧ (contractedFactorsOf mtr gtr ++ uncontractedFactorsOf mtr gtr).Perm
        (modelTermsOf mtr).log_factors := by
  refine ⟨rfl, rfl, ?_, ?_, ?_⟩
  · intro v
    exact Finset.mem_sdiff
  · intro f hf
    constructor
    · rw [contractedFactorsOf, List.mem_filter]
      simp [hf]
    · rw [uncontractedFactorsOf, List.mem_filter]
      simp [hf]
  · simp only [contractedFactorsOf, uncontractedFactorsOf, decide_not]
    exact List.filter_append_perm _ _

/-- Witness for C1 at a concrete input: on the traces `exMtr` / `exGtr`, the
log-factor of the observed site depends on the model-only variable `z` and is
contracted. -/
theorem differentiable_loss_partial_contraction_witness :
    Funsor.mul (Funsor.atom 4 {"z"}) (Funsor.lit 1) ∈
        (modelTermsOf exMtr).log_factors
    ∧ ((Funsor.mul (Funsor.atom 4 {"z"}) (Funsor.lit 1) ∈
          contractedFactorsOf exMtr exGtr ↔
        (modelMeasureVarsOf exMtr exGtr ∩
          (Funsor.mul (Funsor.atom 4 {"z"}) (Funsor.lit 1)).inputs).Nonempty) ∧
      (Funsor.mul (Funsor.atom 4 {"z"}) (Funsor.lit 1) ∈
          uncontractedFactorsOf exMtr exGtr ↔
        ¬ (modelMeasureVarsOf exMtr exGtr ∩
          (Funsor.mul (Funsor.atom 4 {"z"}) (Funsor.lit 1)).inputs).Nonempty)) := by
  have hmem : Funsor.mul (Funsor.atom 4 {"z"}) (Funsor.lit 1) ∈
      (modelTermsOf exMtr).log_factors :=
    List.mem_cons_of_mem _ (List.mem_cons_self _ _)
  exact ⟨hmem,
    (differentiable_loss_partial_contraction exMtr exGtr).2.2.2.1 _ hmem⟩

/-- **C3**: the per-cost log-measures for Rao-Blackwellized weighting come
from reverse-mode adjoints: `logzq` is a `sum_product` (`logaddexp`/`add`) of
the guide log-measures together with one zero-valued `Constant` placeholder
per distinct cost input-variable set, and the adjoint of `logzq` with respect
to the placeholder tuple yields exactly one log-measure per placeholder,
which is paired with every cost sharing that input-variable set. -/
theorem differentiable_loss_adjoint_measures (mtr gtr : Trace) :
    logzqOf mtr gtr =
      Funsor.spd .logaddexp .add
        ((guideTermsOf gtr).log_measures ++
          (targetsOf mtr gtr).map (fun p => p.2))
        (plateVarsOf mtr gtr)
        (plateVarsOf mtr gtr ∪ (guideTermsOf gtr).measure_vars)
    ∧ (∀ p ∈ targetsOf mtr gtr, p.2 = Funsor.constant p.1 0)
    ∧ ((targetsOf mtr gtr).map (fun p => p.1)).Nodup
    ∧ (∀ cost ∈ costsOf mtr gtr,
        (targetsOf mtr gtr).any (fun p => p.1 = cost.inputs) = true)
    ∧ logMeasuresOf mtr gtr =
        (targetsOf mtr gtr).map
          (fun p => (p.1, Funsor.adj .logaddexp .add (logzqOf mtr gtr) p.2))
    ∧ (∀ cost ∈ costsOf mtr gtr,
        (logMeasuresOf mtr gtr).find? (fun p => p.1 = cost.inputs) =
          some (cost.inputs,
            Funsor.adj .logaddexp .add (logzqOf mtr gtr)
              (Funsor.constant cost.inputs 0))) := by
  refine ⟨rfl, ?_, ?_, ?_, rfl, ?_⟩
  · exact targets_fold_shape (costsOf mtr gtr) []
      (fun p hp => absurd hp (List.not_mem_nil p))
  · exact targets_fold_nodup (costsOf mtr gtr) [] List.nodup_nil
  · exact fun cost hc => costs_hasKey mtr gtr cost hc
  · exact fun cost hc => costs_find_log_measure mtr gtr cost hc

/-- Witness for C3 at a concrete input: on `exMtr` / `exGtr` the contracted
cost's input set has a placeholder, and the adjoint lookup returns the
adjoint of that placeholder. -/
theorem differentiable_loss_adjoint_measures_witness :
    (exContractedCost ∈ costsOf exMtr exGtr ∧
      (targetsOf exMtr exGtr).any
        (fun p => p.1 = exContractedCost.inputs) = true ∧
      (logMeasuresOf exMtr exGtr).find?
          (fun p => p.1 = exContractedCost.inputs) =
        some (exContractedCost.inputs,
          Funsor.adj .logaddexp .add (logzqOf exMtr exGtr)
            (Funsor.constant exContractedCost.inputs 0)))
    ∧ (((∅ : Finset String), Funsor.constant ∅ 0) ∈ targetsOf exMtr exGtr ∧
      ((∅ : Finset String), Funsor.constant ∅ 0).2 =
        Funsor.constant ((∅ : Finset String), Funsor.constant ∅ 0).1 0) := by
  have hmem : exContractedCost ∈ costsOf exMtr exGtr := List.mem_cons_self _ _
  have hmemT : ((∅ : Finset String), Funsor.constant ∅ 0) ∈
      targetsOf exMtr exGtr := List.mem_cons_self _ _
  exact ⟨⟨hmem,
      (differentiable_loss_adjoint_measures exMtr exGtr).2.2.2.1 _ hmem,
      (differentiable_loss_adjoint_measures exMtr exGtr).2.2.2.2.2 _ hmem⟩,
    hmemT,
    (differentiable_loss_adjoint_measures exMtr exGtr).2.1 _ hmemT⟩

/-- **C4**: `differentiable_loss` returns the negation of the assembled ELBO:
the costs are the model log-densities (contracted and uncontracted) plus the
negated guide log-densities; each cost is integrated against its matching
log-measure over its non-plate variables and reduced with `add` over the
plate variables appearing in its inputs; the terms are summed, the result is
reduced by `mean` over the Monte-Carlo particle dimension, and the return
value is the negation of this quantity. -/
theorem differentiable_loss_negated_elbo (mtr gtr : Trace) :
    costsOf mtr gtr =
      (contractedCostsOf mtr gtr ++ uncontractedFactorsOf mtr gtr) ++
        (guideTermsOf gtr).log_factors.map Funsor.neg
    ∧ (∀ cost ∈ costsOf mtr gtr,
        elboTermOf mtr gtr cost =
          Funsor.reduce .add (plateVarsOf mtr gtr ∩ cost.inputs)
            (Funsor.integrate
              (Funsor.adj .logaddexp .add (logzqOf mtr gtr)
                (Funsor.constant cost.inputs 0))
              cost
              ((cost.inputs \ plateVarsOf mtr gtr) \
                {"num_particles_vectorized"})))
    ∧ elboSumOf mtr gtr =
        (costsOf mtr gtr).foldl
          (fun elbo cost => Funsor.addF elbo (elboTermOf mtr gtr cost))
          (Funsor.lit 0)
    ∧ differentiableLossOf mtr gtr =
        Funsor.neg (Funsor.reduceAll .mean (elboSumOf mtr gtr)) := by
  exact ⟨rfl, fun cost hc => elboTermOf_eq mtr gtr cost hc, rfl, rfl⟩

/-- Witness for C4 at a concrete input: the ELBO term of the contracted cost
on `exMtr` / `exGtr`. -/
theorem differentiable_loss_negated_elbo_witness :
    exContractedCost ∈ costsOf exMtr exGtr ∧
    elboTermOf exMtr exGtr exContractedCost =
      Funsor.reduce .add (plateVarsOf exMtr exGtr ∩ exContractedCost.inputs)
        (Funsor.integrate
          (Funsor.adj .logaddexp .add (logzqOf exMtr exGtr)
            (Funsor.constant exContractedCost.inputs 0))
          exContractedCost
          ((exContractedCost.inputs \ plateVarsOf exMtr exGtr) \
            {"num_particles_vectorized"})) := by
  have hmem : exContractedCost ∈ costsOf exMtr exGtr := List.mem_cons_self _ _
  exact ⟨hmem, (differentiable_loss_negated_elbo exMtr exGtr).2.1 _ hmem⟩

end PyroFunsor
